import Mathlib

/-!
Verification of the document-to-vector ingestion pipeline of the
`rag-system` repository.  Python strings are embedded as `List Char`
(`len` is `List.length`, slicing is `take`/`drop`), floats appearing in
embedding vectors as `Rat` (only zero-ness and arity of vectors matter to
the properties below), and the remote embedding endpoint as an oracle
`Nat → List (List Char) → CallResult` giving the outcome of the k-th HTTP
POST.  Fallible loops are embedded with explicit fuel where the source
loop's termination is itself in question.
-/

namespace RagSystem

/-! ## Python string primitives -/

/-- Python `str.strip()` on the default whitespace set. -/
def stripChars (l : List Char) : List Char :=
  ((l.dropWhile Char.isWhitespace).reverse.dropWhile Char.isWhitespace).reverse

/-- Python `str.split()` (split on whitespace runs, dropping empty pieces):
auxiliary loop carrying the current word reversed. -/
def splitWsAux : List Char → List Char → List (List Char)
  | [], acc => if acc = [] then [] else [acc.reverse]
  | c :: rest, acc =>
    if c.isWhitespace then
      if acc = [] then splitWsAux rest []
      else acc.reverse :: splitWsAux rest []
    else splitWsAux rest (c :: acc)

/-- Python `str.split()` with no separator argument. -/
def splitWs (l : List Char) : List (List Char) :=
  splitWsAux l []

/-- Python `' '.join(pieces)`. -/
def joinSp (pieces : List (List Char)) : List Char :=
  List.intercalate [' '] pieces

/-- Python `t[-n:]` for `n > 0` (the trailing `n` characters, or the whole
string when it is no longer than `n`). -/
def takeRight (n : Nat) (l : List Char) : List Char :=
  l.drop (l.length - n)

/-! ## `utils/helpers.py`: `batch_iterator` (src/src/utils/helpers.py:350-369)

`for i in range(0, len(items), batch_size): yield items[i:i + batch_size]`.
`range` with step 0 raises `ValueError` in Python; a zero `batch_size` is
outside the modelled domain and is embedded as an empty yield. -/

/-- The slicing loop of `batch_iterator`, structurally recursive on a fuel
bound (the number of items left always strictly decreases, so fuel
`items.length` is always enough). -/
def batchIterGo : Nat → List α → Nat → List (List α)
  | 0, _, _ => []
  | _ + 1, [], _ => []
  | fuel + 1, a :: as, n => (a :: as).take n :: batchIterGo fuel ((a :: as).drop n) n

def batch_iterator (items : List α) (batchSize : Nat) : List (List α) :=
  match batchSize with
  | 0 => []
  | n + 1 => batchIterGo items.length items (n + 1)

theorem batchIterGo_fuel (n : Nat) :
    ∀ fuel1 fuel2 (items : List α), items.length ≤ fuel1 →
      items.length ≤ fuel2 →
      batchIterGo fuel1 items (n + 1) = batchIterGo fuel2 items (n + 1) := by
  intro fuel1
  induction fuel1 with
  | zero =>
    intro fuel2 items h1 h2
    have hnil : items = [] := List.eq_nil_of_length_eq_zero (Nat.le_zero.mp h1)
    subst hnil
    cases fuel2 <;> rfl
  | succ fuel1 ih =>
    intro fuel2 items h1 h2
    cases items with
    | nil => cases fuel2 <;> rfl
    | cons a as =>
      cases fuel2 with
      | zero => simp at h2
      | succ fuel2 =>
        simp only [batchIterGo]
        congr 1
        apply ih
        · simp only [List.length_drop, List.length_cons]
          simp only [List.length_cons] at h1
          omega
        · simp only [List.length_drop, List.length_cons]
          simp only [List.length_cons] at h2
          omega

theorem batch_iterator_nil (n : Nat) : batch_iterator ([] : List α) n = [] := by
  cases n <;> rfl

theorem batch_iterator_cons (a : α) (as : List α) (n : Nat) :
    batch_iterator (a :: as) (n + 1) =
      (a :: as).take (n + 1) :: batch_iterator ((a :: as).drop (n + 1)) (n + 1) := by
  show batchIterGo (a :: as).length (a :: as) (n + 1) = _
  rw [List.length_cons, batchIterGo]
  congr 1
  apply batchIterGo_fuel
  · simp only [List.length_drop, List.length_cons]
    omega
  · exact Nat.le_refl _

theorem batch_iterator_ne_nil (items : List α) (n : Nat)
    (hitems : items ≠ []) : batch_iterator items (n + 1) ≠ [] := by
  cases items with
  | nil => exact absurd rfl hitems
  | cons a as => rw [batch_iterator_cons]; exact List.cons_ne_nil _ _

theorem batch_iterator_flatten (items : List α) (n : Nat) :
    (batch_iterator items (n + 1)).flatten = items := by
  suffices h : ∀ len (items : List α), items.length = len →
      (batch_iterator items (n + 1)).flatten = items from h items.length items rfl
  intro len
  induction len using Nat.strong_induction_on with
  | _ len ih =>
    intro items hlen
    cases items with
    | nil => simp [batch_iterator_nil]
    | cons a as =>
      rw [batch_iterator_cons]
      have hdrop : ((a :: as).drop (n + 1)).length < len := by
        subst hlen
        simp [List.length_drop]
        omega
      have := ih _ hdrop ((a :: as).drop (n + 1)) rfl
      rw [List.flatten_cons, this, List.take_append_drop]

theorem batch_iterator_batches_nonempty (items : List α) (n : Nat) :
    ∀ b ∈ batch_iterator items (n + 1), b ≠ [] := by
  suffices h : ∀ len (items : List α), items.length = len →
      ∀ b ∈ batch_iterator items (n + 1), b ≠ [] from h items.length items rfl
  intro len
  induction len using Nat.strong_induction_on with
  | _ len ih =>
    intro items hlen
    cases items with
    | nil => simp [batch_iterator_nil]
    | cons a as =>
      rw [batch_iterator_cons]
      intro b hb
      rcases List.mem_cons.mp hb with hb | hb
      · subst hb; simp
      · have hdrop : ((a :: as).drop (n + 1)).length < len := by
          subst hlen
          simp [List.length_drop]
          omega
        exact ih _ hdrop ((a :: as).drop (n + 1)) rfl b hb

theorem batch_iterator_full_batches (items : List α) (n : Nat) :
    ∀ b ∈ (batch_iterator items (n + 1)).dropLast, b.length = n + 1 := by
  suffices h : ∀ len (items : List α), items.length = len →
      ∀ b ∈ (batch_iterator items (n + 1)).dropLast, b.length = n + 1 from
    h items.length items rfl
  intro len
  induction len using Nat.strong_induction_on with
  | _ len ih =>
    intro items hlen
    cases items with
    | nil => simp [batch_iterator_nil]
    | cons a as =>
      rw [batch_iterator_cons]
      by_cases hrest : (a :: as).drop (n + 1) = []
      · simp [hrest, batch_iterator_nil]
      · intro b hb
        rw [List.dropLast_cons_of_ne_nil (batch_iterator_ne_nil _ n hrest)] at hb
        rcases List.mem_cons.mp hb with hb | hb
        · subst hb
          have hlong : n + 1 ≤ (a :: as).length := by
            by_contra hcon
            exact hrest (List.drop_eq_nil_of_le (Nat.le_of_not_le hcon))
          simp only [List.length_take]
          omega
        · have hdrop : ((a :: as).drop (n + 1)).length < len := by
            subst hlen
            simp [List.length_drop]
            omega
          exact ih _ hdrop ((a :: as).drop (n + 1)) rfl b hb

/-- C10: for every list of items and every batch_size > 0, the batches
yielded by `batch_iterator` concatenate to exactly the input list in order,
every yielded batch is non-empty, and every batch except possibly the last
has length exactly batch_size. -/
theorem batch_iterator_correct (items : List α) (batchSize : Nat)
    (hpos : 0 < batchSize) :
    (batch_iterator items batchSize).flatten = items ∧
      (∀ b ∈ batch_iterator items batchSize, b ≠ []) ∧
      (∀ b ∈ (batch_iterator items batchSize).dropLast, b.length = batchSize) := by
  obtain ⟨n, rfl⟩ := Nat.exists_eq_add_of_lt hpos
  simp only [Nat.zero_add]
  exact ⟨batch_iterator_flatten items n, batch_iterator_batches_nonempty items n,
    batch_iterator_full_batches items n⟩

/-- C10 witness: the theorem applied to the concrete list `[1, 2, 3, 4, 5]`
with batch size `2`. -/
theorem batch_iterator_correct_witness :
    (batch_iterator [1, 2, 3, 4, 5] 2).flatten = [1, 2, 3, 4, 5] ∧
      (∀ b ∈ batch_iterator [1, 2, 3, 4, 5] 2, b ≠ []) ∧
      (∀ b ∈ (batch_iterator [1, 2, 3, 4, 5] 2).dropLast, b.length = 2) :=
  batch_iterator_correct [1, 2, 3, 4, 5] 2 (by decide)

/-! ## `utils/helpers.py`: `DiskCache` (src/src/utils/helpers.py:266-341)

One file per cache key under a directory: the directory is embedded as a
partial map from file keys to stored vectors, and `_get_key` (the MD5 hex
digest of the text, an external library call) as a deterministic key
function carried by the cache value.  Embedding values are `List Rat`
(vector contents never matter beyond arity and zero-ness). -/

abbrev Vec := List Rat

structure DiskCache where
  keyFn : List Char → List Char
  store : List Char → Option Vec

/-- `DiskCache.get`: read the file named by the key of `text`; absence is a
miss (`none`). -/
def DiskCache.get (c : DiskCache) (text : List Char) : Option Vec :=
  c.store (c.keyFn text)

/-- `DiskCache.set`: write the value to the file named by the key of
`text`, overwriting any previous content. -/
def DiskCache.set (c : DiskCache) (text : List Char) (v : Vec) : DiskCache :=
  { c with store := fun k => if k = c.keyFn text then some v else c.store k }

theorem diskCache_get_set (c : DiskCache) (t : List Char) (v : Vec) :
    (c.set t v).get t = some v := by
  simp [DiskCache.get, DiskCache.set]

theorem diskCache_foldl_set (t : List Char) (vs : List Vec) (last : Vec)
    (hlast : vs.getLast? = some last) :
    ∀ c : DiskCache, (vs.foldl (fun acc w => acc.set t w) c).get t = some last := by
  induction vs with
  | nil => simp at hlast
  | cons v vs ih =>
    intro c
    cases vs with
    | nil =>
      simp only [List.getLast?_singleton, Option.some_inj] at hlast
      subst hlast
      simpa using diskCache_get_set c t v
    | cons w ws =>
      rw [List.getLast?_cons_cons] at hlast
      exact ih hlast (c.set t v)

/-- C7: for every text key and every value, `set(key, v)` followed by
`get(key)` returns `v`, and after any sequence of `set`s on a key `get`
returns the last value written (so repeated `set` with the same key is
idempotent in its observable effect). -/
theorem diskCache_round_trip (c : DiskCache) (t : List Char) (v last : Vec)
    (vs : List Vec) (hlast : vs.getLast? = some last) :
    (c.set t v).get t = some v ∧
      (vs.foldl (fun acc w => acc.set t w) c).get t = some last :=
  ⟨diskCache_get_set c t v, diskCache_foldl_set t vs last hlast c⟩

/-- An initially empty cache over the identity key function, used to
instantiate the cache theorems at a concrete input. -/
def emptyCache : DiskCache :=
  { keyFn := fun t => t, store := fun _ => none }

/-- C7 witness: the round-trip theorem at a concrete key and a concrete
write sequence `[[1], [2], [3]]` (the last write, `[3]`, wins). -/
theorem diskCache_round_trip_witness :
    (emptyCache.set "k".toList [0, 1]).get "k".toList = some [0, 1] ∧
      (([[1], [2], [3]] : List Vec).foldl
          (fun acc w => acc.set "k".toList w) emptyCache).get "k".toList
        = some [3] :=
  diskCache_round_trip emptyCache "k".toList [0, 1] [3] [[1], [2], [3]] (by decide)

/-! ## `config/document_cleaner_enhanced.py`: chunking

`_build_chunks_from_sentences` (lines 375-412) assembles sentence lists
into chunks; `_chunk_by_chars` (lines 415-432) is the fixed-width
fallback.  The latter's `while` loop is embedded with fuel because its
termination is exactly what claim C3 asserts. -/

/-- The loop body of `_build_chunks_from_sentences`, structurally recursive
over the remaining sentences; state = (current_chunk, current_size,
chunks). -/
def buildChunksGo (chunkSize overlap minSize : Nat) :
    List (List Char) → List (List Char) → Nat → List (List Char) → List (List Char)
  | [], currentChunk, _, chunks =>
    if currentChunk = [] then chunks
    else
      let chunkText := joinSp currentChunk
      if minSize ≤ chunkText.length then chunks ++ [chunkText] else chunks
  | s :: rest, currentChunk, currentSize, chunks =>
    let t := stripChars s
    if t = [] then
      buildChunksGo chunkSize overlap minSize rest currentChunk currentSize chunks
    else if chunkSize < currentSize + t.length ∧ currentChunk ≠ [] then
      let chunkText := joinSp currentChunk
      let chunks2 := if minSize ≤ chunkText.length then chunks ++ [chunkText] else chunks
      if 0 < overlap then
        let overlapText :=
          if overlap < chunkText.length then takeRight overlap chunkText else chunkText
        buildChunksGo chunkSize overlap minSize rest [overlapText, t]
          (overlapText.length + t.length) chunks2
      else
        buildChunksGo chunkSize overlap minSize rest [t] t.length chunks2
    else
      buildChunksGo chunkSize overlap minSize rest (currentChunk ++ [t])
        (currentSize + t.length) chunks

/-- `_build_chunks_from_sentences(sentences, chunk_size, overlap, min_size)`. -/
def buildChunksFromSentences (sentences : List (List Char))
    (chunkSize overlap minSize : Nat) : List (List Char) :=
  buildChunksGo chunkSize overlap minSize sentences [] 0 []

/-- The `while start < text_len` loop of `_chunk_by_chars`, with explicit
fuel; `none` means the loop has not finished within `fuel` iterations. -/
def chunkByCharsGo (text : List Char) (chunkSize overlap minSize : Nat) :
    Nat → Nat → List (List Char) → Option (List (List Char))
  | 0, _, _ => none
  | fuel + 1, start, chunks =>
    if start < text.length then
      let e := min (start + chunkSize) text.length
      let chunk := stripChars ((text.drop start).take (e - start))
      let chunks2 := if minSize ≤ chunk.length then chunks ++ [chunk] else chunks
      if e ≤ overlap then some chunks2
      else chunkByCharsGo text chunkSize overlap minSize fuel (e - overlap) chunks2
    else some chunks

/-- `_chunk_by_chars(text, chunk_size, overlap, min_size)` run with the
given amount of fuel from the initial state `start = 0`, `chunks = []`. -/
def chunk_by_chars (text : List Char) (chunkSize overlap minSize fuel : Nat) :
    Option (List (List Char)) :=
  chunkByCharsGo text chunkSize overlap minSize fuel 0 []

/-- Once the window end has reached the text length while the restart
position `text_len - overlap` is still positive, `_chunk_by_chars` makes no
progress: `start = end - overlap` recomputes the same `start` forever. -/
theorem chunkByCharsGo_stuck (text : List Char) (cs ov ms : Nat)
    (hov : 0 < ov) :
    ∀ fuel start chunks, 0 < start → start + ov = text.length →
      text.length ≤ start + cs →
      chunkByCharsGo text cs ov ms fuel start chunks = none := by
  intro fuel
  induction fuel with
  | zero => intro start chunks h1 h2 h3; rfl
  | succ fuel ih =>
    intro start chunks h1 h2 h3
    have hlt : start < text.length := by omega
    have hmin : min (start + cs) text.length = text.length := Nat.min_eq_right h3
    rw [chunkByCharsGo]
    simp only [hmin]
    rw [if_pos hlt, if_neg (show ¬ text.length ≤ ov by omega)]
    have hback : text.length - ov = start := by omega
    rw [hback]
    exact ih start _ h1 h2 h3

/-- A 12-character text on which the fixed-width chunker never terminates
with `chunk_size = 5`, `overlap = 2`. -/
def txtC3 : List Char :=
  ['a', 'b', 'c', 'd', 'e', 'f', 'g', 'h', 'i', 'j', 'k', 'l']

theorem chunkByCharsGo_txtC3_10 (fuel : Nat) (chunks : List (List Char)) :
    chunkByCharsGo txtC3 5 2 1 fuel 10 chunks = none :=
  chunkByCharsGo_stuck txtC3 5 2 1 (by decide) fuel 10 chunks (by decide)
    (by decide) (by decide)

theorem chunkByCharsGo_txtC3_9 (fuel : Nat) (chunks : List (List Char)) :
    chunkByCharsGo txtC3 5 2 1 fuel 9 chunks = none := by
  cases fuel with
  | zero => rfl
  | succ fuel =>
    have hstep : chunkByCharsGo txtC3 5 2 1 (fuel + 1) 9 chunks =
        chunkByCharsGo txtC3 5 2 1 fuel 10
          (chunks ++ [stripChars ((txtC3.drop 9).take 3)]) := rfl
    rw [hstep]
    exact chunkByCharsGo_txtC3_10 fuel _

theorem chunkByCharsGo_txtC3_6 (fuel : Nat) (chunks : List (List Char)) :
    chunkByCharsGo txtC3 5 2 1 fuel 6 chunks = none := by
  cases fuel with
  | zero => rfl
  | succ fuel =>
    have hstep : chunkByCharsGo txtC3 5 2 1 (fuel + 1) 6 chunks =
        chunkByCharsGo txtC3 5 2 1 fuel 9
          (chunks ++ [stripChars ((txtC3.drop 6).take 5)]) := rfl
    rw [hstep]
    exact chunkByCharsGo_txtC3_9 fuel _

theorem chunkByCharsGo_txtC3_3 (fuel : Nat) (chunks : List (List Char)) :
    chunkByCharsGo txtC3 5 2 1 fuel 3 chunks = none := by
  cases fuel with
  | zero => rfl
  | succ fuel =>
    have hstep : chunkByCharsGo txtC3 5 2 1 (fuel + 1) 3 chunks =
        chunkByCharsGo txtC3 5 2 1 fuel 6
          (chunks ++ [stripChars ((txtC3.drop 3).take 5)]) := rfl
    rw [hstep]
    exact chunkByCharsGo_txtC3_6 fuel _

/-- C3: REFUTED ON THE CODE (code bug).  The claim says fixed-width
chunking terminates for every non-empty text, `chunk_size > 0` and
`overlap ≥ 0`, stopping once the window end reaches the text length.  On
the 12-character text `txtC3` with `chunk_size = 5`, `overlap = 2`,
`min_chunk_size = 1` the loop never terminates: no amount of fuel makes
`_chunk_by_chars` return (`start` gets stuck at `10 = end - overlap` with
`end = text_len`). -/
theorem chunk_by_chars_diverges (fuel : Nat) :
    chunk_by_chars txtC3 5 2 1 fuel = none := by
  unfold chunk_by_chars
  cases fuel with
  | zero => rfl
  | succ fuel =>
    have hstep : chunkByCharsGo txtC3 5 2 1 (fuel + 1) 0 [] =
        chunkByCharsGo txtC3 5 2 1 fuel 3 [stripChars (txtC3.take 5)] := rfl
    rw [hstep]
    exact chunkByCharsGo_txtC3_3 fuel _

/-- Both chunk-emission sites guard on `min_size`, so appending the guarded
singleton preserves the minimum-length invariant. -/
theorem guarded_append_inv (chunks : List (List Char)) (chunkText : List Char)
    (ms : Nat) (hinv : ∀ c ∈ chunks, ms ≤ c.length) :
    ∀ c ∈ (if ms ≤ chunkText.length then chunks ++ [chunkText] else chunks),
      ms ≤ c.length := by
  split
  case isTrue h =>
    intro c hc
    rcases List.mem_append.mp hc with hc | hc
    · exact hinv c hc
    · rw [List.mem_singleton] at hc
      subst hc
      exact h
  case isFalse h => exact hinv

theorem buildChunksGo_min_size (cs ov ms : Nat) :
    ∀ (sentences currentChunk : List (List Char)) (currentSize : Nat)
      (chunks : List (List Char)), (∀ c ∈ chunks, ms ≤ c.length) →
      ∀ c ∈ buildChunksGo cs ov ms sentences currentChunk currentSize chunks,
        ms ≤ c.length := by
  intro sentences
  induction sentences with
  | nil =>
    intro cc csz chunks hinv c hc
    simp only [buildChunksGo] at hc
    split at hc
    · exact hinv c hc
    · exact guarded_append_inv chunks _ ms hinv c hc
  | cons s rest ih =>
    intro cc csz chunks hinv c hc
    simp only [buildChunksGo] at hc
    split at hc
    · exact ih cc csz chunks hinv c hc
    · split at hc
      · split at hc
        · exact ih _ _ _ (guarded_append_inv chunks _ ms hinv) c hc
        · exact ih _ _ _ (guarded_append_inv chunks _ ms hinv) c hc
      · exact ih _ _ chunks hinv c hc

theorem chunkByCharsGo_min_size (text : List Char) (cs ov ms : Nat) :
    ∀ (fuel start : Nat) (chunks out : List (List Char)),
      (∀ c ∈ chunks, ms ≤ c.length) →
      chunkByCharsGo text cs ov ms fuel start chunks = some out →
      ∀ c ∈ out, ms ≤ c.length := by
  intro fuel
  induction fuel with
  | zero => intro start chunks out _ hrun; exact absurd hrun (by simp [chunkByCharsGo])
  | succ fuel ih =>
    intro start chunks out hinv hrun
    simp only [chunkByCharsGo] at hrun
    split at hrun
    · split at hrun
      · obtain rfl := Option.some_inj.mp hrun
        exact guarded_append_inv chunks _ ms hinv
      · exact ih _ _ out (guarded_append_inv chunks _ ms hinv) hrun
    · obtain rfl := Option.some_inj.mp hrun
      exact hinv

/-- C5: for every input and parameters, every chunk of a chunking result
has length ≥ `min_chunk_size` — unconditionally, which in particular gives
the claim's weaker form that only allows an exception for a single-chunk
result.  Stated for both producers the claim cites: the sentence-assembly
chunker and the fixed-width chunker (whenever its loop returns). -/
theorem chunks_meet_min_size (sentences : List (List Char)) (text : List Char)
    (chunkSize overlap minSize fuel : Nat) (out : List (List Char))
    (hrun : chunk_by_chars text chunkSize overlap minSize fuel = some out) :
    (∀ c ∈ buildChunksFromSentences sentences chunkSize overlap minSize,
        minSize ≤ c.length) ∧
      ∀ c ∈ out, minSize ≤ c.length := by
  constructor
  · exact buildChunksGo_min_size chunkSize overlap minSize sentences [] 0 []
      (by intro c hc; exact absurd hc (List.not_mem_nil c))
  · exact chunkByCharsGo_min_size text chunkSize overlap minSize fuel 0 [] out
      (by intro c hc; exact absurd hc (List.not_mem_nil c)) hrun

/-- C5 witness: a concrete sentence list and a concrete fixed-width run
(text of 6 characters, `chunk_size = 4`, `overlap = 0`, `min_size = 3`),
both instantiating the theorem. -/
theorem chunks_meet_min_size_witness :
    (∀ c ∈ buildChunksFromSentences
        [['h', 'e', 'l', 'l', 'o'], ['w', 'o', 'r', 'l', 'd']] 4 0 3,
      3 ≤ c.length) ∧
      ∀ c ∈ [['a', 'b', 'c', 'd']], 3 ≤ c.length :=
  chunks_meet_min_size [['h', 'e', 'l', 'l', 'o'], ['w', 'o', 'r', 'l', 'd']]
    ['a', 'b', 'c', 'd', 'e', 'f'] 4 0 3 3 [['a', 'b', 'c', 'd']] (by decide)

/-- The code's `chunk_text[-overlap:] if len(chunk_text) > overlap else
chunk_text` is exactly the trailing `overlap` characters, whole text when
shorter. -/
theorem overlap_seed_eq_takeRight (ov : Nat) (l : List Char) :
    (if ov < l.length then takeRight ov l else l) = takeRight ov l := by
  by_cases h : ov < l.length
  · rw [if_pos h]
  · rw [if_neg h]
    unfold takeRight
    have hz : l.length - ov = 0 := by omega
    rw [hz, List.drop_zero]

/-- C6: in sentence-respecting chunk assembly, when accumulating a sentence
would exceed chunk_size (and `overlap > 0`), the current chunk is closed —
dropped from the output unless its text reaches min_chunk_size — and the
next chunk is seeded with the trailing `overlap` characters of the closed
chunk's text (the whole text when it is shorter than `overlap`) followed by
the sentence that triggered the overflow. -/
theorem overflow_step (chunkSize overlap minSize : Nat) (s : List Char)
    (rest currentChunk : List (List Char)) (currentSize : Nat)
    (chunks : List (List Char)) (hov : 0 < overlap)
    (hs : stripChars s ≠ []) (hcc : currentChunk ≠ [])
    (hoverflow : chunkSize < currentSize + (stripChars s).length) :
    buildChunksGo chunkSize overlap minSize (s :: rest) currentChunk
        currentSize chunks =
      buildChunksGo chunkSize overlap minSize rest
        [takeRight overlap (joinSp currentChunk), stripChars s]
        ((takeRight overlap (joinSp currentChunk)).length
          + (stripChars s).length)
        (chunks ++
          if minSize ≤ (joinSp currentChunk).length
          then [joinSp currentChunk] else []) := by
  have happ : (if minSize ≤ (joinSp currentChunk).length
        then chunks ++ [joinSp currentChunk] else chunks) =
      chunks ++
        (if minSize ≤ (joinSp currentChunk).length
         then [joinSp currentChunk] else []) := by
    split <;> simp
  simp only [buildChunksGo]
  rw [if_neg hs, if_pos ⟨hoverflow, hcc⟩, if_pos hov,
    overlap_seed_eq_takeRight, happ]

/-- C6 witness: the overflow-step theorem at a concrete state —
`chunk_size = 4`, `overlap = 2`, `min_size = 1`, current chunk
`["abc"]` of accumulated size 3, overflowing sentence `" de "`.  The
closed chunk `"abc"` is emitted and the next chunk is seeded with its
trailing 2 characters `"bc"` plus the stripped sentence `"de"`. -/
theorem overflow_step_witness :
    buildChunksGo 4 2 1 [[' ', 'd', 'e', ' ']] [['a', 'b', 'c']] 3 [] =
      buildChunksGo 4 2 1 []
        [takeRight 2 (joinSp [['a', 'b', 'c']]), stripChars [' ', 'd', 'e', ' ']]
        ((takeRight 2 (joinSp [['a', 'b', 'c']])).length
          + (stripChars [' ', 'd', 'e', ' ']).length)
        ([] ++
          if 1 ≤ (joinSp [['a', 'b', 'c']]).length
          then [joinSp [['a', 'b', 'c']]] else []) :=
  overflow_step 4 2 1 [' ', 'd', 'e', ' '] [] [['a', 'b', 'c']] 3 []
    (by decide) (by decide) (by decide) (by decide)

/-! ## `config/document_cleaner_enhanced.py`: `extract_metadata_enhanced`
(lines 185-275)

Base fields only: the spaCy enrichment branch adds `entities`/`keywords`
keys but never changes `source`, `word_count`, `char_count`, `title` or
`summary`, and the claims at issue are about the base fields.  Python
`str.isdigit()` is embedded as `Char.isDigit` (ASCII digits; the concrete
inputs below use ASCII only). -/

structure DocMetadata where
  source : List Char
  word_count : Nat
  char_count : Nat
  title : Option (List Char)
  summary : List Char

def headIsDigit : List Char → Bool
  | [] => false
  | c :: _ => c.isDigit

/-- The title-selection loop: `for line in lines: line = line.strip();
if len(line) > 10 and len(line) < 200: if not line[0].isdigit():
title = line; break`. -/
def titleLoop : List (List Char) → Option (List Char)
  | [] => none
  | line :: rest =>
    let t := stripChars line
    if 10 < t.length ∧ t.length < 200 then
      if headIsDigit t = false then some t else titleLoop rest
    else titleLoop rest

/-- `clean_text[:200] + '...' if len(clean_text) > 200 else clean_text`
with `clean_text = ' '.join(text.split())`. -/
def summaryOf (text : List Char) : List Char :=
  let clean := joinSp (splitWs text)
  if 200 < clean.length then clean.take 200 ++ ['.', '.', '.'] else clean

/-- The base fields of `extract_metadata_enhanced(text, source_path)`. -/
def extract_metadata_enhanced (text source : List Char) : DocMetadata :=
  { source := source
    word_count := (splitWs text).length
    char_count := text.length
    title := titleLoop ((text.splitOn '\n').take 10)
    summary := summaryOf text }

/-- The title rule as claim C9 words it: the first line among the first 10
whose stripped length is 10-200 characters (inclusive) and whose first
character is not a digit. -/
def titleClaimInclusive (text : List Char) : Option (List Char) :=
  (((text.splitOn '\n').take 10).map stripChars).find?
    (fun t => decide (10 ≤ t.length) && decide (t.length ≤ 200) && !(headIsDigit t))

/-- The amended title rule: stripped length strictly between 10 and 200. -/
def titleRuleExclusive (text : List Char) : Option (List Char) :=
  (((text.splitOn '\n').take 10).map stripChars).find?
    (fun t => decide (10 < t.length) && decide (t.length < 200) && !(headIsDigit t))

/-- A document whose first line has stripped length exactly 10. -/
def txtC9 : List Char :=
  ['a', 'b', 'c', 'd', 'e', 'f', 'g', 'h', 'i', 'j', '\n', 'x']

/-- C9 counterexample: on a document whose first line is exactly 10
characters (and no later line qualifies), the code extracts no title —
`len(line) > 10` is strict — while the claim's inclusive 10-200 rule picks
that line. -/
theorem title_boundary_counterexample :
    (extract_metadata_enhanced txtC9 []).title = none ∧
      titleClaimInclusive txtC9 =
        some ['a', 'b', 'c', 'd', 'e', 'f', 'g', 'h', 'i', 'j'] := by
  exact ⟨rfl, rfl⟩

theorem titleLoop_eq_find (lines : List (List Char)) :
    titleLoop lines = (lines.map stripChars).find?
      (fun t => decide (10 < t.length) && decide (t.length < 200)
        && !(headIsDigit t)) := by
  induction lines with
  | nil => rfl
  | cons line rest ih =>
    simp only [titleLoop, List.map_cons, List.find?_cons]
    by_cases h1 : 10 < (stripChars line).length
    · by_cases h2 : (stripChars line).length < 200
      · cases hd : headIsDigit (stripChars line) with
        | false => simp [h1, h2, hd, ih]
        | true => simp [h1, h2, hd, ih]
      · simp [h1, h2, ih]
    · simp [h1, ih]

/-- C9 (amended): the extracted title, when present, is the first line
among the document's first 10 lines whose stripped length is strictly
greater than 10 and strictly less than 200 and whose first character is
not a digit; when no such line exists the title is absent, and word count,
char count and summary are produced either way. -/
theorem extract_metadata_base_fields (text source : List Char) :
    (extract_metadata_enhanced text source).title = titleRuleExclusive text ∧
      (extract_metadata_enhanced text source).word_count
        = (splitWs text).length ∧
      (extract_metadata_enhanced text source).char_count = text.length ∧
      (extract_metadata_enhanced text source).summary = summaryOf text :=
  ⟨titleLoop_eq_find ((text.splitOn '\n').take 10), rfl, rfl, rfl⟩

/-! ## `src/azure_embedding.py`: the embedding client

The remote endpoint is an oracle from (request counter, request payload)
to the outcome of that HTTP POST: a 200 with embedding data, a 429 with an
optional parsed `Retry-After`, another HTTP error status (which
`raise_for_status` turns into an `HTTPError`), or a non-HTTP exception
carrying its message.  `time.sleep` calls are recorded in a sleep log (the
claims count sleeps); the rolling rate-ceiling and inter-request delays of
`embed_batch` only add sleeps and are not otherwise observable.  The
lowercased exception message tested by `embed_batch` is embedded as: the
literal `"max retries exceeded"` for an exhausted budget, the status code
followed by `" client error"` for an `HTTPError`, and the carried message
for other exceptions. -/

inductive CallResult where
  | ok (data : List Vec)
  | rate (retryAfter : Option Nat)
  | httpErr (code : Nat)
  | exn (msg : List Char)

inductive EmbedResult where
  | success (data : List Vec)
  | httpFailure (code : Nat)
  | exnFailure (msg : List Char)
  | maxRetriesExceeded

abbrev EmbedOracle := Nat → List (List Char) → CallResult

/-- The control-character class removed by `validate_and_clean_text`:
`[\x00-\x08\x0b-\x0c\x0e-\x1f\x7f]`. -/
def isCtrlChar (c : Char) : Bool :=
  let n := c.toNat
  (n ≤ 8) || (n = 11) || (n = 12) || (14 ≤ n && n ≤ 31) || (n = 127)

/-- `validate_and_clean_text` (lines 56-81): empty or whitespace-only text
becomes the sentinel `"empty"`; control characters are removed; the text
is truncated to 30000 characters and stripped, with the sentinel again
substituted when nothing is left. -/
def validate_and_clean_text (text : List Char) : List Char :=
  if stripChars text = [] then "empty".toList
  else
    let t1 := text.filter (fun c => !(isCtrlChar c))
    let t2 := t1.take 30000
    let t3 := stripChars t2
    if t3 = [] then "empty".toList else t3

/-- The `for attempt in range(self.max_retries)` loop of `embed`
(lines 93-139), structurally recursive on the remaining iterations
(`remaining = 0` means the current iteration is the last,
`attempt == max_retries - 1`).  State: attempt index (for the exponential
backoff `2 ** attempt`), request counter, sleep log. -/
def embedGo (oracle : EmbedOracle) (req : List (List Char)) :
    Nat → Nat → Nat → List Nat → EmbedResult × Nat × List Nat
  | 0, _, k, sleeps => (.maxRetriesExceeded, k, sleeps)
  | remaining + 1, attempt, k, sleeps =>
    match oracle k req with
    | .ok data => (.success data, k + 1, sleeps)
    | .rate ra =>
      embedGo oracle req remaining (attempt + 1) (k + 1) (sleeps ++ [ra.getD 10])
    | .httpErr c =>
      if remaining = 0 then (.httpFailure c, k + 1, sleeps)
      else embedGo oracle req remaining (attempt + 1) (k + 1) sleeps
    | .exn m =>
      if remaining = 0 then (.exnFailure m, k + 1, sleeps)
      else embedGo oracle req remaining (attempt + 1) (k + 1) (sleeps ++ [2 ^ attempt])

/-- `embed(texts)` on a list input, starting at request counter `k`:
validates and cleans every text, then runs the retry loop. -/
def embed (maxRetries : Nat) (oracle : EmbedOracle) (k : Nat)
    (texts : List (List Char)) : EmbedResult × Nat × List Nat :=
  embedGo oracle (texts.map validate_and_clean_text) maxRetries 0 k []

def toLowerChars (l : List Char) : List Char :=
  l.map Char.toLower

/-- `str(e).lower()` for the exception a failed `embed` raises. -/
def errMsgOf : EmbedResult → List Char
  | .success _ => []
  | .maxRetriesExceeded => "max retries exceeded".toList
  | .httpFailure c => (toString c).toList ++ " client error".toList
  | .exnFailure m => toLowerChars m

/-- Python `needle in haystack` on strings: some suffix of the haystack
starts with the needle. -/
def containsSub (needle : List Char) : List Char → Bool
  | [] => needle.isEmpty
  | c :: rest => needle.isPrefixOf (c :: rest) || containsSub needle rest

/-- The hard-coded zero-vector placeholder `[0.0] * 3072` of
`embed_batch`. -/
def zeroVec : Vec :=
  List.replicate 3072 0

/-- The `for text in batch` fallback of `embed_batch` (lines 210-218): each
text is embedded alone; any failure — including a success response with an
empty data array, whose `embeddings[0]` raises `IndexError` into the bare
`except` — appends the zero-vector placeholder. -/
def perTextEmbed (maxRetries : Nat) (oracle : EmbedOracle) :
    List (List Char) → Nat → List Vec → Nat × List Vec
  | [], k, acc => (k, acc)
  | t :: ts, k, acc =>
    match embed maxRetries oracle k [t] with
    | (.success (v :: _), k2, _) => perTextEmbed maxRetries oracle ts k2 (acc ++ [v])
    | (.success [], k2, _) => perTextEmbed maxRetries oracle ts k2 (acc ++ [zeroVec])
    | (_, k2, _) => perTextEmbed maxRetries oracle ts k2 (acc ++ [zeroVec])

/-- The `except Exception` handler of the per-batch loop of `embed_batch`
(lines 192-220): on a failure whose message names a rate limit, wait and
retry the whole sub-batch once, zero-filling it if the retry also fails;
on a message naming a 400 or model error, fall back to per-text embedding;
any other failure re-raises (`.error`).  Returns the updated request
counter and accumulated vectors to continue with. -/
def recoverBatch (maxRetries : Nat) (oracle : EmbedOracle)
    (batch : List (List Char)) (k : Nat) (acc : List Vec) (msg : List Char) :
    Except (List Char) (Nat × List Vec) :=
  if containsSub "rate limit".toList msg || containsSub "429".toList msg then
    match embed maxRetries oracle k batch with
    | (.success data, k3, _) => .ok (k3, acc ++ data)
    | (_, k3, _) => .ok (k3, acc ++ batch.map (fun _ => zeroVec))
  else if containsSub "400".toList msg || containsSub "model_error".toList msg then
    .ok (perTextEmbed maxRetries oracle batch k acc)
  else .error msg

/-- The per-batch loop of `embed_batch` (lines 176-220): each sub-batch is
embedded, extending the accumulator on success and entering the failure
handler otherwise. -/
def embedBatchGo (maxRetries : Nat) (oracle : EmbedOracle) :
    List (List (List Char)) → Nat → List Vec → Except (List Char) (List Vec)
  | [], _, acc => .ok acc
  | batch :: rest, k, acc =>
    match embed maxRetries oracle k batch with
    | (.success data, k2, _) => embedBatchGo maxRetries oracle rest k2 (acc ++ data)
    | (failRes, k2, _) =>
      match recoverBatch maxRetries oracle batch k2 acc (errMsgOf failRes) with
      | .ok (k3, acc2) => embedBatchGo maxRetries oracle rest k3 acc2
      | .error msg => .error msg

/-- `embed_batch(texts, batch_size)` (lines 143-225). -/
def embed_batch (maxRetries : Nat) (oracle : EmbedOracle)
    (texts : List (List Char)) (batchSize : Nat) : Except (List Char) (List Vec) :=
  embedBatchGo maxRetries oracle (batch_iterator texts batchSize) 0 []

/-- A successful `embed` returns data that some oracle call answered
verbatim: the retry loop never edits the response payload. -/
theorem embedGo_success_origin (oracle : EmbedOracle) (req : List (List Char)) :
    ∀ (remaining attempt k : Nat) (sleeps : List Nat) (data : List Vec)
      (k2 : Nat) (s2 : List Nat),
      embedGo oracle req remaining attempt k sleeps = (.success data, k2, s2) →
      ∃ j, oracle j req = .ok data := by
  intro remaining
  induction remaining with
  | zero =>
    intro attempt k sleeps data k2 s2 h
    simp [embedGo, Prod.ext_iff] at h
  | succ remaining ih =>
    intro attempt k sleeps data k2 s2 h
    rw [embedGo] at h
    cases hor : oracle k req with
    | ok d =>
      simp only [hor] at h
      simp only [Prod.ext_iff, EmbedResult.success.injEq] at h
      exact ⟨k, h.1 ▸ hor⟩
    | rate ra =>
      simp only [hor] at h
      exact ih _ _ _ _ _ _ h
    | httpErr c =>
      simp only [hor] at h
      split at h
      · simp [Prod.ext_iff] at h
      · exact ih _ _ _ _ _ _ h
    | exn m =>
      simp only [hor] at h
      split at h
      · simp [Prod.ext_iff] at h
      · exact ih _ _ _ _ _ _ h

theorem embed_success_length (maxRetries : Nat) (oracle : EmbedOracle)
    (H : ∀ k req data, oracle k req = .ok data → data.length = req.length)
    (k : Nat) (texts : List (List Char)) (data : List Vec) (k2 : Nat)
    (s2 : List Nat) (h : embed maxRetries oracle k texts = (.success data, k2, s2)) :
    data.length = texts.length := by
  obtain ⟨j, hj⟩ :=
    embedGo_success_origin oracle (texts.map validate_and_clean_text)
      maxRetries 0 k [] data k2 s2 h
  have := H j _ _ hj
  simpa using this

theorem perTextEmbed_length (maxRetries : Nat) (oracle : EmbedOracle) :
    ∀ (ts : List (List Char)) (k : Nat) (acc : List Vec),
      (perTextEmbed maxRetries oracle ts k acc).2.length = acc.length + ts.length := by
  intro ts
  induction ts with
  | nil => intro k acc; rfl
  | cons t ts ih =>
    intro k acc
    rw [perTextEmbed]
    split
    · rw [ih]
      simp only [List.length_append, List.length_cons, List.length_nil]
      omega
    · rw [ih]
      simp only [List.length_append, List.length_cons, List.length_nil]
      omega
    · rw [ih]
      simp only [List.length_append, List.length_cons, List.length_nil]
      omega

theorem recoverBatch_length (maxRetries : Nat) (oracle : EmbedOracle)
    (H : ∀ k req data, oracle k req = .ok data → data.length = req.length)
    (batch : List (List Char)) (k : Nat) (acc : List Vec) (msg : List Char)
    (k3 : Nat) (acc2 : List Vec)
    (h : recoverBatch maxRetries oracle batch k acc msg = .ok (k3, acc2)) :
    acc2.length = acc.length + batch.length := by
  rw [recoverBatch] at h
  split at h
  · split at h
    next x d k4 s4 heq =>
      simp only [Except.ok.injEq, Prod.mk.injEq] at h
      rw [← h.2, List.length_append,
        embed_success_length maxRetries oracle H k batch d k4 s4 heq]
    next x fst k4 s4 hno heq =>
      simp only [Except.ok.injEq, Prod.mk.injEq] at h
      rw [← h.2]
      simp [List.length_append]
  · split at h
    · simp only [Except.ok.injEq] at h
      have hl := perTextEmbed_length maxRetries oracle batch k acc
      rw [h] at hl
      simpa using hl
    · exact absurd h (by simp)

theorem embedBatchGo_length (maxRetries : Nat) (oracle : EmbedOracle)
    (H : ∀ k req data, oracle k req = .ok data → data.length = req.length) :
    ∀ (batches : List (List (List Char))) (k : Nat) (acc out : List Vec),
      embedBatchGo maxRetries oracle batches k acc = .ok out →
      out.length = acc.length + (batches.map List.length).sum := by
  intro batches
  induction batches with
  | nil =>
    intro k acc out h
    simp only [embedBatchGo, Except.ok.injEq] at h
    simp [h.symm]
  | cons batch rest ih =>
    intro k acc out h
    rw [embedBatchGo] at h
    split at h
    next x d k2 s2 heq =>
      have hlen := embed_success_length maxRetries oracle H k batch d k2 s2 heq
      have hrec := ih k2 (acc ++ d) out h
      simp only [List.length_append, hlen] at hrec
      simp only [List.map_cons, List.sum_cons, hrec]
      omega
    next x fst k2 s2 hno heq =>
      split at h
      next x2 k3 acc2 heq2 =>
        have hlen := recoverBatch_length maxRetries oracle H batch k2 acc
          (errMsgOf fst) k3 acc2 heq2
        have hrec := ih k3 acc2 out h
        simp only [hlen] at hrec
        simp only [List.map_cons, List.sum_cons, hrec]
        omega
      next x2 msg heq2 => exact absurd h (by simp)

/-- C1: whenever `embed_batch` returns normally it returns exactly one
embedding vector per input text, in input order (each consecutive batch
contributes exactly its own size, with failures zero-filled in place,
never omitted).  The hypothesis on the oracle is the external interface
guarantee of the embedding endpoint: a 200 response carries one embedding
per input. -/
theorem embed_batch_length (maxRetries batchSize : Nat) (oracle : EmbedOracle)
    (texts : List (List Char)) (out : List Vec)
    (H : ∀ k req data, oracle k req = .ok data → data.length = req.length)
    (hbs : 0 < batchSize)
    (hrun : embed_batch maxRetries oracle texts batchSize = .ok out) :
    out.length = texts.length := by
  have h := embedBatchGo_length maxRetries oracle H
    (batch_iterator texts batchSize) 0 [] out hrun
  have hflat : ((batch_iterator texts batchSize).map List.length).sum
      = texts.length := by
    have h2 := (batch_iterator_correct texts batchSize hbs).1
    calc ((batch_iterator texts batchSize).map List.length).sum
        = (batch_iterator texts batchSize).flatten.length :=
          (List.length_flatten _).symm
      _ = texts.length := by rw [h2]
  simpa [hflat] using h

/-- A well-behaved endpoint answering a one-dimensional embedding per
input, used to instantiate C1 at a concrete input. -/
def oracleOkC1 : EmbedOracle :=
  fun _ req => .ok (req.map (fun _ => [0]))

/-- C1 witness: three texts embedded in two sub-batches produce exactly
three vectors. -/
theorem embed_batch_length_witness :
    ([[0], [0], [0]] : List Vec).length
      = ([['a'], ['b'], ['c']] : List (List Char)).length :=
  embed_batch_length 3 2 oracleOkC1 [['a'], ['b'], ['c']] [[0], [0], [0]]
    (by
      intro k req data h
      simp only [oracleOkC1, CallResult.ok.injEq] at h
      subst h
      simp)
    (by decide) rfl

/-! ## C2: vector dimensions within one run -/

theorem zeroVec_length : zeroVec.length = 3072 := by
  rw [zeroVec, List.length_replicate]

/-- The endpoint used by the C2 counterexample: the first call succeeds
with a 1-dimensional embedding (a 1-dimensional model), every later call
fails with HTTP 400. -/
def oracleC2 : EmbedOracle :=
  fun k _ => if k = 0 then .ok [[1]] else .httpErr 400

/-- C2 counterexample: a run in which the model's successful embedding is
1-dimensional while the failed chunk's placeholder is the hard-coded
`[0.0] * 3072` — two different dimensions inside one normally-returning
`embed_batch` run, so the placeholder is not "of that same model
dimension". -/
theorem placeholder_dimension_counterexample :
    embed_batch 1 oracleC2 [['a'], ['b']] 1 = .ok [[1], zeroVec] ∧
      ([1] : Vec).length ≠ zeroVec.length := by
  constructor
  · rfl
  · rw [zeroVec_length]
    decide

theorem embed_success_dims (maxRetries : Nat) (oracle : EmbedOracle)
    (H : ∀ k req data, oracle k req = .ok data → ∀ v ∈ data, v.length = 3072)
    (k : Nat) (texts : List (List Char)) (data : List Vec) (k2 : Nat)
    (s2 : List Nat)
    (h : embed maxRetries oracle k texts = (.success data, k2, s2)) :
    ∀ v ∈ data, v.length = 3072 := by
  obtain ⟨j, hj⟩ :=
    embedGo_success_origin oracle (texts.map validate_and_clean_text)
      maxRetries 0 k [] data k2 s2 h
  exact H j _ _ hj

theorem perTextEmbed_dims (maxRetries : Nat) (oracle : EmbedOracle)
    (H : ∀ k req data, oracle k req = .ok data → ∀ v ∈ data, v.length = 3072) :
    ∀ (ts : List (List Char)) (k : Nat) (acc : List Vec),
      (∀ v ∈ acc, v.length = 3072) →
      ∀ v ∈ (perTextEmbed maxRetries oracle ts k acc).2, v.length = 3072 := by
  intro ts
  induction ts with
  | nil => intro k acc hacc; exact hacc
  | cons t ts ih =>
    intro k acc hacc v hv
    rw [perTextEmbed] at hv
    split at hv
    · rename_i w tl k2 s2 heq
      refine ih k2 (acc ++ [w]) ?_ v hv
      intro u hu
      rcases List.mem_append.mp hu with hu | hu
      · exact hacc u hu
      · rw [List.mem_singleton] at hu
        rw [hu]
        exact embed_success_dims maxRetries oracle H k [t] (w :: tl) k2 s2 heq
          w (List.mem_cons_self w tl)
    · rename_i k2 s2 heq
      refine ih k2 (acc ++ [zeroVec]) ?_ v hv
      intro u hu
      rcases List.mem_append.mp hu with hu | hu
      · exact hacc u hu
      · rw [List.mem_singleton] at hu
        subst hu
        exact zeroVec_length
    · rename_i k2 s2 hno1 hno2 heq
      refine ih k2 (acc ++ [zeroVec]) ?_ v hv
      intro u hu
      rcases List.mem_append.mp hu with hu | hu
      · exact hacc u hu
      · rw [List.mem_singleton] at hu
        subst hu
        exact zeroVec_length

theorem recoverBatch_dims (maxRetries : Nat) (oracle : EmbedOracle)
    (H : ∀ k req data, oracle k req = .ok data → ∀ v ∈ data, v.length = 3072)
    (batch : List (List Char)) (k : Nat) (acc : List Vec) (msg : List Char)
    (k3 : Nat) (acc2 : List Vec) (hacc : ∀ v ∈ acc, v.length = 3072)
    (h : recoverBatch maxRetries oracle batch k acc msg = .ok (k3, acc2)) :
    ∀ v ∈ acc2, v.length = 3072 := by
  rw [recoverBatch] at h
  split at h
  · split at h
    next x d k4 s4 heq =>
      simp only [Except.ok.injEq, Prod.mk.injEq] at h
      rw [← h.2]
      intro v hv
      rcases List.mem_append.mp hv with hv | hv
      · exact hacc v hv
      · exact embed_success_dims maxRetries oracle H k batch d k4 s4 heq v hv
    next x fst k4 s4 hno heq =>
      simp only [Except.ok.injEq, Prod.mk.injEq] at h
      rw [← h.2]
      intro v hv
      rcases List.mem_append.mp hv with hv | hv
      · exact hacc v hv
      · rcases List.mem_map.mp hv with ⟨t, _, rfl⟩
        exact zeroVec_length
  · split at h
    · simp only [Except.ok.injEq] at h
      have := perTextEmbed_dims maxRetries oracle H batch k acc hacc
      rw [h] at this
      exact this
    · exact absurd h (by simp)

theorem embedBatchGo_dims (maxRetries : Nat) (oracle : EmbedOracle)
    (H : ∀ k req data, oracle k req = .ok data → ∀ v ∈ data, v.length = 3072) :
    ∀ (batches : List (List (List Char))) (k : Nat) (acc out : List Vec),
      (∀ v ∈ acc, v.length = 3072) →
      embedBatchGo maxRetries oracle batches k acc = .ok out →
      ∀ v ∈ out, v.length = 3072 := by
  intro batches
  induction batches with
  | nil =>
    intro k acc out hacc h
    simp only [embedBatchGo, Except.ok.injEq] at h
    exact h ▸ hacc
  | cons batch rest ih =>
    intro k acc out hacc h
    rw [embedBatchGo] at h
    split at h
    next x d k2 s2 heq =>
      refine ih k2 (acc ++ d) out ?_ h
      intro v hv
      rcases List.mem_append.mp hv with hv | hv
      · exact hacc v hv
      · exact embed_success_dims maxRetries oracle H k batch d k2 s2 heq v hv
    next x fst k2 s2 hno heq =>
      split at h
      next x2 k3 acc2 heq2 =>
        exact ih k3 acc2 out
          (recoverBatch_dims maxRetries oracle H batch k2 acc
            (errMsgOf fst) k3 acc2 hacc heq2) h
      next x2 msg heq2 => exact absurd h (by simp)

/-- C2 (amended): the failure placeholder is the all-zero vector of
hard-coded dimension 3072 (`[0.0] * 3072`), independent of the configured
or actual model dimension; consequently all vectors of a normally
returning `embed_batch` run share one dimension exactly when the model's
successful embeddings are themselves 3072-dimensional, as hypothesised
here. -/
theorem embed_batch_dimension (maxRetries batchSize : Nat)
    (oracle : EmbedOracle) (texts : List (List Char)) (out : List Vec)
    (H : ∀ k req data, oracle k req = .ok data → ∀ v ∈ data, v.length = 3072)
    (hrun : embed_batch maxRetries oracle texts batchSize = .ok out) :
    ∀ v ∈ out, v.length = 3072 :=
  embedBatchGo_dims maxRetries oracle H (batch_iterator texts batchSize) 0 []
    out (by intro v hv; exact absurd hv (List.not_mem_nil v)) hrun

/-- A 3072-dimensional endpoint for the C2 witness. -/
def oracleOkC2 : EmbedOracle :=
  fun _ req => .ok (req.map (fun _ => zeroVec))

/-- C2 witness: the amended dimension theorem applied to a concrete run
against a 3072-dimensional endpoint, at the run's single output vector. -/
theorem embed_batch_dimension_witness : zeroVec.length = 3072 :=
  embed_batch_dimension 1 1 oracleOkC2 [['a']] [zeroVec]
    (by
      intro k req data h
      simp only [oracleOkC2, CallResult.ok.injEq] at h
      subst h
      intro v hv
      rcases List.mem_map.mp hv with ⟨t, _, rfl⟩
      exact zeroVec_length)
    rfl zeroVec (List.mem_singleton.mpr rfl)

/-! ## C4: HTTP 429 handling in `embed` -/

/-- The endpoint used for C4: the first call answers 429 with
`Retry-After: 2`, every later call succeeds. -/
def oracleC4 : EmbedOracle :=
  fun k _ => if k = 0 then .rate (some 2) else .ok [[1]]

/-- C4 counterexample: with `max_retries = 1`, a single 429 followed by an
available success still fails with "Max retries exceeded" after one sleep
of the Retry-After value — the `continue` after the 429 consumed the only
`range(max_retries)` iteration, so a 429 does use up a retry budget slot,
and the success on the next call is never requested. -/
theorem rate_limit_budget_counterexample :
    embed 1 oracleC4 0 [['t']] = (.maxRetriesExceeded, 1, [2]) ∧
      oracleC4 1 ([['t']].map validate_and_clean_text) = .ok [[1]] :=
  ⟨rfl, rfl⟩

/-- C4 (amended): on HTTP 429 `embed` reads the Retry-After value
(defaulting to 10 when absent), sleeps it and retries, but each 429
consumes one attempt of the `max_retries` budget; when `max_retries ≥ 2`,
a single 429 followed by a success yields exactly one sleep of the
Retry-After value and then the successful result. -/
theorem rate_limit_retry (maxRetries : Nat) (oracle : EmbedOracle) (k : Nat)
    (texts : List (List Char)) (ra : Option Nat) (data : List Vec)
    (h2 : 2 ≤ maxRetries)
    (h429 : oracle k (texts.map validate_and_clean_text) = .rate ra)
    (hok : oracle (k + 1) (texts.map validate_and_clean_text) = .ok data) :
    embed maxRetries oracle k texts = (.success data, k + 2, [ra.getD 10]) := by
  obtain ⟨m, rfl⟩ : ∃ m, maxRetries = m + 2 := ⟨maxRetries - 2, by omega⟩
  show embedGo oracle (texts.map validate_and_clean_text) (m + 2) 0 k [] = _
  rw [show m + 2 = (m + 1) + 1 from rfl]
  simp only [embedGo, h429, hok, List.nil_append]

/-- C4 witness: the amended theorem at `max_retries = 2` against the
concrete endpoint `oracleC4` — one sleep of 2 seconds, then success. -/
theorem rate_limit_retry_witness :
    embed 2 oracleC4 0 [['t']] = (.success [[1]], 2, [2]) :=
  rate_limit_retry 2 oracleC4 0 [['t']] (some 2) [[1]] (by decide) rfl rfl

/-! ## `src/ingest_qdrant_v2.py`: deterministic upload identifiers

`process_document` (lines 199-214) builds one record per chunk with
`id = f"{file_path.stem}_{i}"`; `upsert_to_qdrant` (lines 301-312) maps
each record to a point whose id is `uuid5(NAMESPACE_DNS, doc['id'])` — a
deterministic pure function of the record id, embedded as an arbitrary
function `u5`.  `embed_documents` (lines 229-288) only fills each record's
`vector` field in place (from the cache or from the `embed_batch` output),
never touching `id`, `text` or the list order; its net effect on a record
list is embedded as an assignment of one vector per position, the vectors
a run happens to produce being captured by a function from positions. -/

structure IngestDoc where
  id : List Char
  text : List Char
  vector : Vec

/-- The record-building loop of `process_document`: one record per chunk,
`id = f"{stem}_{i}"`, vector not yet assigned. -/
def buildDocuments (stem : List Char) (chunks : List (List Char)) :
    List IngestDoc :=
  chunks.enum.map (fun p =>
    { id := stem ++ ('_' :: (toString p.1).toList), text := p.2, vector := [] })

/-- The net effect of `embed_documents` on a record list: position `i`
receives vector `vecs i`; ids, texts and order are unchanged. -/
def assignVectors (vecs : Nat → Vec) (docs : List IngestDoc) : List IngestDoc :=
  docs.enum.map (fun p => { p.2 with vector := vecs p.1 })

/-- The point-building loop of `upsert_to_qdrant`: one point id
`uuid5(NAMESPACE_DNS, doc['id'])` per record. -/
def upsertPointIds (u5 : List Char → List Char) (docs : List IngestDoc) :
    List (List Char) :=
  docs.map (fun d => u5 d.id)

theorem assignVectors_map_id (vecs : Nat → Vec) (docs : List IngestDoc) :
    (assignVectors vecs docs).map (fun d => d.id) = docs.map (fun d => d.id) := by
  unfold assignVectors
  rw [List.map_map]
  have : ((fun d : IngestDoc => d.id) ∘ fun p : Nat × IngestDoc =>
      { p.2 with vector := vecs p.1 }) = (fun d : IngestDoc => d.id) ∘ Prod.snd := by
    funext p
    rfl
  rw [this, ← List.map_map, List.enum_map_snd]

theorem buildDocuments_map_id (stem : List Char) (chunks : List (List Char)) :
    (buildDocuments stem chunks).map (fun d => d.id) =
      (List.range chunks.length).map
        (fun i => stem ++ ('_' :: (toString i).toList)) := by
  unfold buildDocuments
  rw [List.map_map]
  have : ((fun d : IngestDoc => d.id) ∘ fun p : Nat × List Char =>
      { id := stem ++ ('_' :: (toString p.1).toList), text := p.2,
        vector := ([] : Vec) }) =
      (fun i => stem ++ ('_' :: (toString i).toList)) ∘ Prod.fst := by
    funext p
    rfl
  rw [this, ← List.map_map, List.enum_map_fst]

/-- C8: re-ingesting the same file with unchanged content and configuration
(hence the same stem and chunk list) produces the same upload-record
identifiers in both runs, whatever vectors the two runs' embedding stages
produced — each identifier is `uuid5` of `stem + "_" + chunk index` and
depends on nothing else. -/
theorem upsert_ids_deterministic (u5 : List Char → List Char)
    (stem : List Char) (chunks : List (List Char)) (vecs1 vecs2 : Nat → Vec) :
    upsertPointIds u5 (assignVectors vecs1 (buildDocuments stem chunks)) =
        upsertPointIds u5 (assignVectors vecs2 (buildDocuments stem chunks)) ∧
      upsertPointIds u5 (assignVectors vecs1 (buildDocuments stem chunks)) =
        (List.range chunks.length).map
          (fun i => u5 (stem ++ ('_' :: (toString i).toList))) := by
  have key : ∀ vecs : Nat → Vec,
      upsertPointIds u5 (assignVectors vecs (buildDocuments stem chunks)) =
        (List.range chunks.length).map
          (fun i => u5 (stem ++ ('_' :: (toString i).toList))) := by
    intro vecs
    unfold upsertPointIds
    rw [show (fun d : IngestDoc => u5 d.id) = u5 ∘ (fun d : IngestDoc => d.id)
        from rfl, ← List.map_map, assignVectors_map_id, buildDocuments_map_id,
      List.map_map]
    rfl
  exact ⟨(key vecs1).trans (key vecs2).symm, key vecs1⟩

end RagSystem
